import Mathlib

/-!
# Torrent access: piece queue and session object

A shallow embedding of `src/torrent.h` (the `Piece`, `PiecesQueue` and
`TorrentAccess` declarations together with the inline member functions defined in
the header), followed by a model of the piece-acquisition pipeline whose bodies
live outside the header.

Conventions.
* C++ `int` fields are `Int`; the header performs no arithmetic on them.
* `uint64_t` byte offsets are `Nat`.
* A nullable owning pointer (`unique_bptr`, `unique_cptr`, the `ti` pointer of the
  add-parameters) is an `Option`; `nullptr` is `none`.
* Dereferencing a null pointer is undefined, so a function that dereferences
  returns an `Option` and yields `none` on the null case.
* Mutexes, condition variables, the thread object and the engine handles carry no
  value the header's code reads or writes; they are left out of the records.
-/

namespace Torrent

/-! ## Data model (src/torrent.h, lines 49-78) -/

/-- The payload a `unique_bptr` owns: the bytes of a VLC `block_t`.  The block type is
declared in `vlc_common.h`, outside this header; only its byte content matters here. -/
structure block_t where
  p_buffer : List Nat
deriving DecidableEq, Repr

/-- `struct Piece` (lines 49-64). -/
structure Piece where
  id : Int
  offset : Int
  length : Int
  requested : Bool
  data : Option block_t
deriving DecidableEq, Repr

/-- `Piece(int i, int off, int len)` (lines 52-57): the three arguments are stored,
`requested` is `false`, `data` is the null pointer. -/
def Piece.ctor (i off len : Int) : Piece :=
  { id := i, offset := off, length := len, requested := false, data := none }

/-- `Piece()` (line 51): delegates to `Piece{0, 0, 0}`. -/
def Piece.ctor0 : Piece := Piece.ctor 0 0 0

/-- `struct PiecesQueue` (lines 66-71): the deque of pieces; front of the deque is the
head of the list. -/
structure PiecesQueue where
  pieces : List Piece
deriving DecidableEq, Repr

/-- The part of VLC's `access_t` the constructor reads: the location string. -/
structure access_t where
  psz_location : String
deriving DecidableEq, Repr

/-- The torrent metadata object the add-parameters point to (`lt::torrent_info`, a
library type).  The header only stores and returns it. -/
structure torrent_info where
  piece_length : Nat
  total_size : Nat
deriving DecidableEq, Repr

/-- The engine's add-parameters (`lt::add_torrent_params`, a library type): the header
reads only the nullable metadata pointer `ti`. -/
structure add_torrent_params where
  ti : Option torrent_info
  save_path : String
deriving DecidableEq, Repr

/-- A default-constructed `lt::add_torrent_params`: no metadata attached. -/
def add_torrent_params.ctor0 : add_torrent_params :=
  { ti := none, save_path := "" }

/-- `class TorrentAccess` (lines 113-124): the data members that hold values. -/
structure TorrentAccess where
  access_ : access_t
  file_at_ : Int
  uri_ : String
  stopped_ : Bool
  download_dir_ : Option String
  queue_ : PiecesQueue
  params_ : add_torrent_params
deriving DecidableEq, Repr

/-! ## Member functions defined in the header -/

/-- `TorrentAccess(access_t* p_access)` (lines 83-91). -/
def TorrentAccess.ctor (p_access : access_t) : TorrentAccess :=
  { access_ := p_access
    file_at_ := 0
    uri_ := "torrent://" ++ p_access.psz_location
    stopped_ := false
    download_dir_ := none
    queue_ := { pieces := [] }
    params_ := add_torrent_params.ctor0 }

/-- `~TorrentAccess()` (lines 92-94): the state change made by the destructor body. -/
def TorrentAccess.dtor (t : TorrentAccess) : TorrentAccess :=
  { t with stopped_ := true }

/-- `set_download_dir` (lines 127-130). -/
def TorrentAccess.set_download_dir (t : TorrentAccess) (dir : Option String) : TorrentAccess :=
  { t with download_dir_ := dir }

/-- `set_parameters` (lines 132-135). -/
def TorrentAccess.set_parameters (t : TorrentAccess) (params : add_torrent_params) :
    TorrentAccess :=
  { t with params_ := params }

/-- `metadata()` (lines 137-140): `*params_.ti`; undefined (here `none`) on a null `ti`. -/
def TorrentAccess.metadata (t : TorrentAccess) : Option torrent_info :=
  match t.params_.ti with
  | none => none
  | some info => some info

/-- `has_metadata()` (lines 142-145). -/
def TorrentAccess.has_metadata (t : TorrentAccess) : Bool :=
  if t.params_.ti = none then false else true

/-- `uri()` (lines 147-150). -/
def TorrentAccess.uri (t : TorrentAccess) : String :=
  t.uri_

/-- One call of a setter of the header, with its argument. -/
inductive SetterCall where
  | download_dir (dir : Option String)
  | parameters (params : add_torrent_params)
deriving DecidableEq, Repr

/-- Perform one setter call on the object. -/
def applySetter (t : TorrentAccess) : SetterCall → TorrentAccess
  | .download_dir dir => t.set_download_dir dir
  | .parameters params => t.set_parameters params

/-- Perform a sequence of setter calls, left to right. -/
def applySetters (t : TorrentAccess) (calls : List SetterCall) : TorrentAccess :=
  calls.foldl applySetter t

/-! ## The piece-acquisition pipeline

`ReadNextPiece`, `SelectPieces` and the alert handlers are declared in the header
(lines 99-100, 109-111) and defined elsewhere.  The definitions below follow the
specification of the Piece Buffer, the Piece Selector and the Stream Adapter, and act on
the `pieces` deque of the header's `PiecesQueue`. -/

/-- Modelled from the spec: the geometry `SelectPieces` reads from the torrent metadata
(body not in the header): the piece size, the length of the selected file, which starts
at piece 0, and the number of subsequent pieces in the forward window (a bounded count
the specification leaves as a parameter). -/
structure Layout where
  piece_size : Nat
  file_size : Nat
  window : Nat
deriving DecidableEq, Repr

/-- Modelled from the spec: the number of pieces of the selected file (metadata query
used by `SelectPieces`, body not in the header). -/
def Layout.num_pieces (L : Layout) : Nat :=
  (L.file_size + L.piece_size - 1) / L.piece_size

/-- Modelled from the spec: the index of the piece covering a byte offset (computed by
`SelectPieces`, body not in the header). -/
def Layout.covering (L : Layout) (offset : Nat) : Nat :=
  offset / L.piece_size

/-- Modelled from the spec: one past the last index of the forward window of
`SelectPieces` (body not in the header): the covering piece and `window` subsequent
pieces, never past the last piece of the file. -/
def Layout.window_end (L : Layout) (offset : Nat) : Nat :=
  min (L.covering offset + L.window + 1) L.num_pieces

/-- Modelled from the spec: the piece indices of the forward window of `SelectPieces`
(body not in the header), in increasing order. -/
def Layout.window_ids (L : Layout) (offset : Nat) : List Nat :=
  List.range' (L.covering offset) (L.window_end offset - L.covering offset)

/-- Modelled from the spec: whether a queued piece id lies in the forward window of
`SelectPieces` (body not in the header). -/
def Layout.in_window (L : Layout) (offset : Nat) (i : Int) : Bool :=
  decide ((L.covering offset : Int) ≤ i ∧ i < (L.window_end offset : Int))

/-- Modelled from the spec: the descriptor `SelectPieces` (body not in the header)
creates for piece `i`: `offset` is the byte offset of the needed window within the
piece (the position inside the covering piece, 0 for a later piece) and `length` the
requested length (up to the end of the piece or of the file). -/
def Layout.descriptor (L : Layout) (offset : Nat) (i : Nat) : Piece :=
  let off := if i = L.covering offset then offset % L.piece_size else 0
  Piece.ctor (i : Int) (off : Int)
    ((min L.piece_size (L.file_size - i * L.piece_size) - off : Nat) : Int)

/-- Modelled from the spec: the Piece Buffer's `enqueue` (body not in the header):
"appends if absent", a piece being present when an entry carries its id. -/
def enqueue (q : List Piece) (p : Piece) : List Piece :=
  if q.any (fun x => decide (x.id = p.id)) then q else q ++ [p]

/-- Modelled from the spec: the Piece Buffer's `mark_arrived(id, data)`, the body of
`HandleReadPiece` (not in the header): "locate the matching entry in the Piece Buffer
by piece id, attach the payload, clear `requested`". -/
def mark_arrived : List Piece → Int → block_t → List Piece
  | [], _, _ => []
  | p :: rest, id, d =>
    if p.id = id then { p with data := some d, requested := false } :: rest
    else p :: mark_arrived rest id d

/-- Modelled from the spec: the Piece Buffer's `fetch_next`, the taking step of
`ReadNextPiece` (body not in the header): once the front piece's data has arrived it
is popped and returned with the rest of the queue; `none` while the caller is still
blocked (empty queue, or front piece without data). -/
def fetch_next : List Piece → Option (Piece × List Piece)
  | [] => none
  | p :: rest => if p.data.isSome then some (p, rest) else none

/-- Modelled from the spec: the read request `ReadNextPiece`/the selector issues for
the piece currently needed (body not in the header): the front piece, when it has no
data yet, is marked `requested`. -/
def request_front : List Piece → List Piece
  | [] => []
  | p :: rest => (if p.data.isSome then p else { p with requested := true }) :: rest

/-- Modelled from the spec: the entries `SelectPieces(offset)` (body not in the header)
keeps from the queue it finds.  The front of the queue is re-anchored at the piece
covering the offset: entries queued ahead of the covering piece's entry are dropped, and
all entries are dropped when the covering piece has none (specification, section 8:
"front-of-queue must be re-anchored"; section 9: pieces behind the current offset are
evictable).  Of the entries that follow, those outside the forward window are dropped
(section 4.5: "stale pieces simply age out of the forward window"). -/
def age_out (L : Layout) (offset : Nat) (q : List Piece) : List Piece :=
  (q.dropWhile (fun p => decide (p.id ≠ (L.covering offset : Int)))).filter
    (fun p => L.in_window offset p.id)

/-- Modelled from the spec: what one `SelectPieces` call (body not in the header) leaves
behind: the piece queue, and the pieces whose download priority it raised in the engine,
in the order of the calls. -/
structure Selection where
  queue : List Piece
  urgent : List Nat
deriving DecidableEq, Repr

/-- Modelled from the spec: the step of `SelectPieces` (body not in the header) for one
piece of the forward window: a new descriptor is enqueued if the piece is not already
present, and the download priority of the piece is raised (raising the priority of a
piece that is already urgent changes nothing in the engine). -/
def select_one (L : Layout) (offset : Nat) (acc : Selection) (i : Nat) : Selection :=
  { queue := enqueue acc.queue (L.descriptor offset i), urgent := acc.urgent ++ [i] }

/-- Modelled from the spec: `SelectPieces(offset)` (body not in the header): the queue is
aged out and re-anchored, then the pieces of the forward window are handled in increasing
id order. -/
def select_window (L : Layout) (offset : Nat) (q : List Piece) : Selection :=
  (L.window_ids offset).foldl (select_one L offset) { queue := age_out L offset q, urgent := [] }

/-- Modelled from the spec: the piece queue after `SelectPieces(offset)` (body not in the
header). -/
def select_pieces (L : Layout) (offset : Nat) (q : List Piece) : List Piece :=
  (select_window L offset q).queue

/-- What can happen to the Piece Buffer between enqueues: the dispatcher attaches an
arrived payload, the reader issues the read request for the front piece, or the reader
attempts to take the next piece. -/
inductive Event where
  | arrive (id : Int) (d : block_t)
  | request
  | fetch
deriving DecidableEq, Repr

/-- One buffer event: the queue after it and the piece handed out, if any.  A fetch
attempt on a front piece without data hands out nothing and leaves the queue as it is. -/
def Event.step (q : List Piece) : Event → List Piece × Option Piece
  | .arrive id d => (mark_arrived q id d, none)
  | .request => (request_front q, none)
  | .fetch =>
    match fetch_next q with
    | none => (q, none)
    | some (p, rest) => (rest, some p)

/-- Play a sequence of buffer events: the final queue and the pieces handed out, in the
order they were handed out. -/
def play : List Piece → List Event → List Piece × List Piece
  | q, [] => (q, [])
  | q, e :: es =>
    ((play (e.step q).1 es).1, (e.step q).2.toList ++ (play (e.step q).1 es).2)

/-- An operation on the piece queue: a `SelectPieces` call or a buffer event. -/
inductive Op where
  | select (offset : Nat)
  | event (e : Event)
deriving DecidableEq, Repr

/-- The queue after one operation. -/
def Op.step (L : Layout) (q : List Piece) : Op → List Piece
  | .select offset => select_pieces L offset q
  | .event e => (e.step q).1

/-- The queue reached from the empty queue of a fresh object by a sequence of
operations. -/
def reach (L : Layout) (ops : List Op) : List Piece :=
  ops.foldl (Op.step L) []

/-- Modelled from the spec: the Stream Adapter's state used by `ReadNextPiece` (body
not in the header): the current byte offset in the selected file and the piece queue. -/
structure Stream where
  pos : Nat
  queue : List Piece
deriving DecidableEq, Repr

/-- Modelled from the spec: `StartDownload` (body not in the header) "issues an initial
`select_pieces(0)`" on the empty queue. -/
def start_download (L : Layout) : Stream :=
  { pos := 0, queue := select_pieces L 0 [] }

/-- Modelled from the spec: the byte window the Stream Adapter slices out of a returned
payload (body of `ReadNextPiece` not in the header): `length` bytes from `offset`. -/
def slice (p : Piece) : Piece :=
  let window := fun (b : block_t) =>
    ({ p_buffer := (b.p_buffer.drop p.offset.toNat).take p.length.toNat } : block_t)
  { p with data := p.data.map window }

/-- Modelled from the spec: `ReadNextPiece(piece, eof)` (body not in the header).
`alerts` are the piece-read-complete alerts the dispatcher handles while the call is
blocked.  At end of file nothing is fetched and `eof` is set.  Otherwise the call
selects pieces for the current offset, requests the front piece, lets the alerts
attach their payloads and takes the front piece; the offset advances by the piece's
length and `eof` is set when it reaches the end of the file.  Without the front
piece's data the wait ends with no piece. -/
def read_next_piece (L : Layout) (alerts : List (Int × block_t)) (s : Stream) :
    (Option Piece × Bool) × Stream :=
  if L.file_size ≤ s.pos then ((none, true), s)
  else
    let q := alerts.foldl (fun acc a => mark_arrived acc a.1 a.2)
      (request_front (select_pieces L s.pos s.queue))
    match fetch_next q with
    | none => ((none, false), { s with queue := q })
    | some (p, rest) =>
      ((some (slice p), decide (L.file_size ≤ s.pos + p.length.toNat)),
        { pos := s.pos + p.length.toNat, queue := rest })

/-- Call `ReadNextPiece` once per batch of alerts, threading the state; the outputs
`(piece, eof)` of the calls in order. -/
def read_all (L : Layout) : List (List (Int × block_t)) → Stream → List (Option Piece × Bool)
  | [], _ => []
  | b :: bs, s => (read_next_piece L b s).1 :: read_all L bs (read_next_piece L b s).2


/-- The descriptor part of a queue entry: its id, offset and length. -/
def Piece.key (p : Piece) : Int × Int × Int := (p.id, p.offset, p.length)

/-- The descriptors of `m` consecutive whole pieces of size `ps` starting at piece `k`. -/
def whole_pieces (ps k m : Nat) : List (Int × Int × Int) :=
  (List.range' k m).map (fun (i : Nat) => ((i : Int), (0 : Int), (ps : Int)))

/-! ## Lemmas about the piece buffer -/

theorem mark_arrived_ids (q : List Piece) (i : Int) (d : block_t) :
    (mark_arrived q i d).map Piece.id = q.map Piece.id := by
  induction q with
  | nil => rfl
  | cons p rest ih =>
    unfold mark_arrived
    split
    · rfl
    · simp [ih]

theorem fetch_next_some {q : List Piece} {p : Piece} {rest : List Piece}
    (h : fetch_next q = some (p, rest)) : q = p :: rest ∧ p.data.isSome = true := by
  cases q with
  | nil => simp [fetch_next] at h
  | cons x xs =>
    simp only [fetch_next] at h
    by_cases hx : x.data.isSome = true
    · simp only [hx, if_true, Option.some.injEq, Prod.mk.injEq] at h
      obtain ⟨rfl, rfl⟩ := h
      exact ⟨rfl, hx⟩
    · simp [hx] at h

theorem request_front_ids (q : List Piece) :
    (request_front q).map Piece.id = q.map Piece.id := by
  cases q with
  | nil => rfl
  | cons p rest =>
    simp only [request_front, List.map_cons, List.cons.injEq, and_true]
    split <;> rfl

theorem step_ids (q : List Piece) (e : Event) :
    ((e.step q).2.toList ++ (e.step q).1).map Piece.id = q.map Piece.id := by
  cases e with
  | arrive i d => simp [Event.step, mark_arrived_ids]
  | request => simp [Event.step, request_front_ids]
  | fetch =>
    unfold Event.step
    cases h : fetch_next q with
    | none => simp
    | some r =>
      obtain ⟨p, rest⟩ := r
      obtain ⟨hq, -⟩ := fetch_next_some h
      simp [hq]

theorem play_ids (es : List Event) :
    ∀ q : List Piece, ((play q es).2 ++ (play q es).1).map Piece.id = q.map Piece.id := by
  induction es with
  | nil => intro q; simp [play]
  | cons e es ih =>
    intro q
    have hs := step_ids q e
    have hi := ih (e.step q).1
    simp only [play, List.map_append, List.append_assoc] at hi hs ⊢
    rw [hi, hs]

theorem play_delivered_is_front_run (q : List Piece) (es : List Event) :
    (play q es).2.map Piece.id <+: q.map Piece.id := by
  refine ⟨(play q es).1.map Piece.id, ?_⟩
  rw [← List.map_append]
  exact play_ids es q

theorem play_append (es₁ es₂ : List Event) :
    ∀ q : List Piece, play q (es₁ ++ es₂) =
      ((play (play q es₁).1 es₂).1, (play q es₁).2 ++ (play (play q es₁).1 es₂).2) := by
  induction es₁ with
  | nil => intro q; simp [play]
  | cons e es ih =>
    intro q
    show ((play (e.step q).1 (es ++ es₂)).1,
        (e.step q).2.toList ++ (play (e.step q).1 (es ++ es₂)).2) = _
    rw [ih]
    simp only [play, List.append_assoc]

theorem play_arrivals (arr : List (Int × block_t)) :
    ∀ q : List Piece, play q (arr.map (fun a => Event.arrive a.1 a.2)) =
      (arr.foldl (fun acc a => mark_arrived acc a.1 a.2) q, []) := by
  induction arr with
  | nil => intro q; rfl
  | cons a arr ih =>
    intro q
    simp only [List.map_cons, List.foldl_cons, play, Event.step, ih]
    rfl

theorem play_fetches (q : List Piece) (h : ∀ p ∈ q, p.data.isSome = true) :
    play q (List.replicate q.length Event.fetch) = ([], q) := by
  induction q with
  | nil => rfl
  | cons p rest ih =>
    have hp : p.data.isSome = true := h p (List.mem_cons_self _ _)
    have hr := ih (fun x hx => h x (List.mem_cons_of_mem _ hx))
    simp only [List.length_cons, List.replicate_succ, play, Event.step, fetch_next, hp,
      if_true, hr]
    rfl

theorem mark_arrived_data (q : List Piece) (i : Int) (d : block_t) (j : Int)
    (hn : (q.map Piece.id).Nodup)
    (h : j ≠ i → ∀ p ∈ q, p.id = j → p.data.isSome = true) :
    ∀ p ∈ mark_arrived q i d, p.id = j → p.data.isSome = true := by
  induction q with
  | nil => intro p hp; simp [mark_arrived] at hp
  | cons x xs ih =>
    simp only [List.map_cons, List.nodup_cons] at hn
    intro p hp hj
    unfold mark_arrived at hp
    split at hp
    · rename_i hx
      rcases List.mem_cons.mp hp with rfl | hp
      · rfl
      · have hne : j ≠ i := by
          intro hji
          apply hn.1
          rw [hx, ← hji, ← hj]
          exact List.mem_map_of_mem _ hp
        exact h hne p (List.mem_cons_of_mem _ hp) hj
    · rename_i hx
      rcases List.mem_cons.mp hp with rfl | hp
      · have hne : j ≠ i := fun hji => hx (hj.trans hji)
        exact h hne _ (List.mem_cons_self _ _) hj
      · exact ih hn.2 (fun hne y hy => h hne y (List.mem_cons_of_mem _ hy)) p hp hj

theorem arrivals_data (arr : List (Int × block_t)) :
    ∀ (q : List Piece) (j : Int), (q.map Piece.id).Nodup →
      ((∀ p ∈ q, p.id = j → p.data.isSome = true) ∨ j ∈ arr.map Prod.fst) →
      ∀ p ∈ arr.foldl (fun acc a => mark_arrived acc a.1 a.2) q,
        p.id = j → p.data.isSome = true := by
  induction arr with
  | nil =>
    intro q j _ h p hp hj
    rcases h with h | h
    · exact h p hp hj
    · simp at h
  | cons a arr ih =>
    intro q j hn h
    simp only [List.foldl_cons]
    apply ih _ j (by rw [mark_arrived_ids]; exact hn)
    by_cases hja : j = a.1
    · left
      subst hja
      exact mark_arrived_data q a.1 a.2 a.1 hn (fun hne => absurd rfl hne)
    · rcases h with h | h
      · left
        exact mark_arrived_data q a.1 a.2 j hn (fun _ => h)
      · right
        simp only [List.map_cons, List.mem_cons] at h
        rcases h with h | h
        · exact absurd h hja
        · exact h

theorem arrivals_ids (arr : List (Int × block_t)) :
    ∀ q : List Piece,
      (arr.foldl (fun acc a => mark_arrived acc a.1 a.2) q).map Piece.id = q.map Piece.id := by
  induction arr with
  | nil => intro q; rfl
  | cons a arr ih => intro q; simp only [List.foldl_cons, ih, mark_arrived_ids]

theorem enqueue_nodup (q : List Piece) (p : Piece) (h : (q.map Piece.id).Nodup) :
    ((enqueue q p).map Piece.id).Nodup := by
  unfold enqueue
  split
  · exact h
  · rename_i hp
    simp only [List.any_eq_true, decide_eq_true_eq, not_exists, not_and] at hp
    rw [List.map_append, List.nodup_append]
    refine ⟨h, by simp, ?_⟩
    intro a ha hb
    simp only [List.map_cons, List.map_nil, List.mem_singleton] at hb
    obtain ⟨x, hx, rfl⟩ := List.mem_map.mp ha
    exact hp x hx hb

theorem enqueue_all_nodup {α : Type} (f : α → Piece) (l : List α) :
    ∀ q : List Piece, (q.map Piece.id).Nodup →
      ((l.foldl (fun acc i => enqueue acc (f i)) q).map Piece.id).Nodup := by
  induction l with
  | nil => intro q h; exact h
  | cons a l ih => intro q h; exact ih _ (enqueue_nodup q (f a) h)

theorem enqueue_fresh (ps : List Piece) :
    ∀ q : List Piece, ((q ++ ps).map Piece.id).Nodup →
      ps.foldl enqueue q = q ++ ps := by
  induction ps with
  | nil => intro q _; simp
  | cons p ps ih =>
    intro q h
    have hq : enqueue q p = q ++ [p] := by
      unfold enqueue
      rw [if_neg]
      simp only [List.any_eq_true, decide_eq_true_eq, not_exists, not_and]
      intro x hx hxp
      rw [List.map_append, List.nodup_append] at h
      exact h.2.2 (List.mem_map_of_mem _ hx) (by simp [hxp])
    simp only [List.foldl_cons, hq]
    rw [ih (q ++ [p]) (by simpa using h)]
    simp

theorem select_fold (L : Layout) (offset : Nat) (l : List Nat) :
    ∀ acc : Selection,
      (l.foldl (select_one L offset) acc).queue =
          l.foldl (fun a i => enqueue a (L.descriptor offset i)) acc.queue ∧
        (l.foldl (select_one L offset) acc).urgent = acc.urgent ++ l := by
  induction l with
  | nil => intro acc; simp
  | cons i l ih =>
    intro acc
    simp only [List.foldl_cons]
    obtain ⟨h1, h2⟩ := ih (select_one L offset acc i)
    refine ⟨h1, ?_⟩
    rw [h2]
    simp [select_one]

theorem select_pieces_eq (L : Layout) (offset : Nat) (q : List Piece) :
    select_pieces L offset q =
      (L.window_ids offset).foldl (fun a i => enqueue a (L.descriptor offset i))
        (age_out L offset q) :=
  (select_fold L offset (L.window_ids offset) { queue := age_out L offset q, urgent := [] }).1

theorem age_out_sublist (L : Layout) (offset : Nat) (q : List Piece) :
    List.Sublist (age_out L offset q) q :=
  (List.filter_sublist _).trans (List.dropWhile_sublist _)

theorem select_pieces_nodup (L : Layout) (offset : Nat) (q : List Piece)
    (h : (q.map Piece.id).Nodup) : ((select_pieces L offset q).map Piece.id).Nodup := by
  rw [select_pieces_eq]
  apply enqueue_all_nodup
  exact h.sublist ((age_out_sublist L offset q).map _)

theorem step_nodup (q : List Piece) (e : Event) (h : (q.map Piece.id).Nodup) :
    (((e.step q).1).map Piece.id).Nodup := by
  have hs := step_ids q e
  rw [← hs, List.map_append] at h
  exact (List.nodup_append.mp h).2.1

theorem reach_nodup (L : Layout) (ops : List Op) :
    ((reach L ops).map Piece.id).Nodup := by
  unfold reach
  suffices hgen : ∀ q : List Piece, (q.map Piece.id).Nodup →
      ((ops.foldl (Op.step L) q).map Piece.id).Nodup from hgen [] (by simp)
  induction ops with
  | nil => intro q h; exact h
  | cons o ops ih =>
    intro q h
    simp only [List.foldl_cons]
    apply ih
    cases o with
    | select offset => exact select_pieces_nodup L offset q h
    | event e => exact step_nodup q e h

/-! ## Lemmas about sequential reading of whole pieces -/

theorem map_id_eq_map_key (q : List Piece) :
    q.map Piece.id = (q.map Piece.key).map Prod.fst := by
  rw [List.map_map]
  rfl

theorem mark_arrived_keys (q : List Piece) (i : Int) (d : block_t) :
    (mark_arrived q i d).map Piece.key = q.map Piece.key := by
  induction q with
  | nil => rfl
  | cons p rest ih =>
    unfold mark_arrived
    split
    · rfl
    · simp [ih]

theorem request_front_keys (q : List Piece) :
    (request_front q).map Piece.key = q.map Piece.key := by
  cases q with
  | nil => rfl
  | cons p rest =>
    simp only [request_front, List.map_cons, List.cons.injEq, and_true]
    split <;> rfl

theorem arrivals_keys (arr : List (Int × block_t)) :
    ∀ q : List Piece,
      (arr.foldl (fun acc a => mark_arrived acc a.1 a.2) q).map Piece.key =
        q.map Piece.key := by
  induction arr with
  | nil => intro q; rfl
  | cons a arr ih => intro q; simp only [List.foldl_cons, ih, mark_arrived_keys]

theorem enqueue_present {α : Type} (f : α → Piece) (l : List α) (q : List Piece)
    (h : ∀ i ∈ l, ∃ x ∈ q, x.id = (f i).id) :
    l.foldl (fun acc i => enqueue acc (f i)) q = q := by
  induction l with
  | nil => rfl
  | cons a l ih =>
    have ha : enqueue q (f a) = q := by
      unfold enqueue
      rw [if_pos]
      obtain ⟨x, hx, hxa⟩ := h a (List.mem_cons_self _ _)
      simp only [List.any_eq_true, decide_eq_true_eq]
      exact ⟨x, hx, hxa⟩
    simp only [List.foldl_cons, ha]
    exact ih (fun i hi => h i (List.mem_cons_of_mem _ hi))

theorem enqueue_fresh_map {α : Type} (f : α → Piece) (l : List α) (q : List Piece)
    (h : ((q ++ l.map f).map Piece.id).Nodup) :
    l.foldl (fun acc i => enqueue acc (f i)) q = q ++ l.map f := by
  rw [← enqueue_fresh (l.map f) q h, List.foldl_map]

theorem num_pieces_whole (n ps w : Nat) (hps : 0 < ps) :
    Layout.num_pieces ⟨ps, n * ps, w⟩ = n := by
  show (n * ps + ps - 1) / ps = n
  rw [Nat.add_sub_assoc hps, Nat.mul_comm, Nat.mul_add_div hps,
    Nat.div_eq_of_lt (by omega), Nat.add_zero]

theorem covering_whole (n ps w k : Nat) (hps : 0 < ps) :
    Layout.covering ⟨ps, n * ps, w⟩ (k * ps) = k := by
  show k * ps / ps = k
  exact Nat.mul_div_cancel k hps

theorem window_end_whole (n ps w k : Nat) (hps : 0 < ps) :
    Layout.window_end ⟨ps, n * ps, w⟩ (k * ps) = min (k + w + 1) n := by
  unfold Layout.window_end
  rw [covering_whole n ps w k hps, num_pieces_whole n ps w hps]

theorem descriptor_id (L : Layout) (offset i : Nat) : (L.descriptor offset i).id = (i : Int) :=
  rfl

theorem descriptor_whole (n ps w k i : Nat) (hi : i < n) :
    Layout.descriptor ⟨ps, n * ps, w⟩ (k * ps) i = Piece.ctor (i : Int) 0 (ps : Int) := by
  have hoff : (if i = Layout.covering ⟨ps, n * ps, w⟩ (k * ps) then k * ps % ps else 0) = 0 := by
    split
    · exact Nat.mul_mod_left k ps
    · rfl
  have hlen : min ps (n * ps - i * ps) = ps := by
    rw [← Nat.sub_mul]
    apply Nat.min_eq_left
    exact Nat.le_mul_of_pos_left ps (by omega)
  show Piece.ctor ((i : Nat) : Int)
    (((if i = Layout.covering ⟨ps, n * ps, w⟩ (k * ps) then k * ps % ps else 0 : Nat)) : Int)
    (((min ps (n * ps - i * ps) -
      (if i = Layout.covering ⟨ps, n * ps, w⟩ (k * ps) then k * ps % ps else 0) : Nat)) : Int)
    = _
  rw [hoff, hlen]
  rfl

theorem select_pieces_whole (n ps w k m : Nat) (q : List Piece) (hps : 0 < ps)
    (hq : q.map Piece.key = whole_pieces ps k m) (hm : k + m ≤ min (k + w + 1) n) :
    (select_pieces ⟨ps, n * ps, w⟩ (k * ps) q).map Piece.key =
      whole_pieces ps k (min (k + w + 1) n - k) := by
  have hmem : ∀ p ∈ q, ∃ i, k ≤ i ∧ i < k + m ∧ p.key = ((i : Int), (0 : Int), (ps : Int)) := by
    intro p hp
    have : p.key ∈ whole_pieces ps k m := hq ▸ List.mem_map_of_mem _ hp
    obtain ⟨i, hi, hk⟩ := List.mem_map.mp this
    rw [List.mem_range'_1] at hi
    exact ⟨i, hi.1, hi.2, hk.symm⟩
  have hdrop : q.dropWhile
      (fun p => decide (p.id ≠ (Layout.covering ⟨ps, n * ps, w⟩ (k * ps) : Int))) = q := by
    cases q with
    | nil => rfl
    | cons p rest =>
      obtain ⟨i, h1, h2, hk⟩ := hmem p (List.mem_cons_self _ _)
      have hid : p.id = (i : Int) := congrArg Prod.fst hk
      have hik : i = k := by
        have hm1 : 1 ≤ m := by omega
        have hhead := congrArg List.head? hq
        rw [whole_pieces, show m = (m - 1) + 1 by omega, List.range'_succ] at hhead
        simp only [List.map_cons, List.head?_cons, Option.some.injEq] at hhead
        have := congrArg Prod.fst hhead
        rw [show (p.key).1 = p.id from rfl, hid] at this
        exact Int.ofNat.inj this
      rw [List.dropWhile_cons_of_neg]
      rw [covering_whole n ps w k hps, hid, hik]
      simp
  have hfil : age_out ⟨ps, n * ps, w⟩ (k * ps) q = q := by
    unfold age_out
    rw [hdrop, List.filter_eq_self]
    intro p hp
    obtain ⟨i, h1, h2, hk⟩ := hmem p hp
    have hid : p.id = (i : Int) := congrArg Prod.fst hk
    simp only [Layout.in_window, covering_whole n ps w k hps, window_end_whole n ps w k hps,
      decide_eq_true_eq, hid]
    omega
  have hids : Layout.window_ids ⟨ps, n * ps, w⟩ (k * ps) =
      List.range' k m ++ List.range' (k + m) (min (k + w + 1) n - k - m) := by
    unfold Layout.window_ids
    rw [covering_whole n ps w k hps, window_end_whole n ps w k hps, List.range'_append_1]
    congr 1
    omega
  have hqid : q.map Piece.id = (List.range' k m).map (fun (i : Nat) => (i : Int)) := by
    rw [map_id_eq_map_key, hq, whole_pieces, List.map_map]
    rfl
  have hpres : (List.range' k m).foldl
      (fun acc i => enqueue acc (Layout.descriptor ⟨ps, n * ps, w⟩ (k * ps) i)) q = q := by
    apply enqueue_present
    intro i hi
    have : (i : Int) ∈ q.map Piece.id := by
      rw [hqid]
      exact List.mem_map_of_mem _ hi
    obtain ⟨x, hx, hxi⟩ := List.mem_map.mp this
    exact ⟨x, hx, hxi⟩
  have hfresh : (List.range' (k + m) (min (k + w + 1) n - k - m)).foldl
      (fun acc i => enqueue acc (Layout.descriptor ⟨ps, n * ps, w⟩ (k * ps) i)) q =
      q ++ (List.range' (k + m) (min (k + w + 1) n - k - m)).map
        (Layout.descriptor ⟨ps, n * ps, w⟩ (k * ps)) := by
    apply enqueue_fresh_map
    rw [List.map_append, hqid, List.map_map]
    have hnew : (List.range' (k + m) (min (k + w + 1) n - k - m)).map
        (Piece.id ∘ Layout.descriptor ⟨ps, n * ps, w⟩ (k * ps)) =
        (List.range' (k + m) (min (k + w + 1) n - k - m)).map (fun (i : Nat) => (i : Int)) :=
      List.map_congr_left (fun i _ => rfl)
    rw [hnew, ← List.map_append, List.range'_append_1]
    exact (List.nodup_range' _ _).map Nat.cast_injective
  rw [select_pieces_eq, hfil, hids, List.foldl_append, hpres, hfresh, List.map_append, hq,
    List.map_map]
  have hnew : (List.range' (k + m) (min (k + w + 1) n - k - m)).map
      (Piece.key ∘ Layout.descriptor ⟨ps, n * ps, w⟩ (k * ps)) =
      (List.range' (k + m) (min (k + w + 1) n - k - m)).map
        (fun (i : Nat) => ((i : Int), (0 : Int), (ps : Int))) := by
    apply List.map_congr_left
    intro i hi
    rw [List.mem_range'_1] at hi
    show (Layout.descriptor ⟨ps, n * ps, w⟩ (k * ps) i).key = _
    rw [descriptor_whole n ps w k i (by omega)]
    rfl
  rw [hnew, whole_pieces, whole_pieces, ← List.map_append, List.range'_append_1]
  congr 2
  omega

theorem read_next_piece_of_fetch (L : Layout) (alerts : List (Int × block_t)) (s : Stream)
    (p : Piece) (rest : List Piece) (hpos : ¬ L.file_size ≤ s.pos)
    (hf : fetch_next (alerts.foldl (fun acc a => mark_arrived acc a.1 a.2)
      (request_front (select_pieces L s.pos s.queue))) = some (p, rest)) :
    read_next_piece L alerts s =
      ((some (slice p), decide (L.file_size ≤ s.pos + p.length.toNat)),
        { pos := s.pos + p.length.toNat, queue := rest }) := by
  unfold read_next_piece
  rw [if_neg hpos]
  simp only [hf]

theorem read_next_piece_whole (n ps w k m : Nat) (s : Stream) (b : List (Int × block_t))
    (hps : 0 < ps) (hk : k < n) (hpos : s.pos = k * ps)
    (hq : s.queue.map Piece.key = whole_pieces ps k m) (hm : k + m ≤ min (k + w + 1) n)
    (hb : (k : Int) ∈ b.map Prod.fst) :
    ((read_next_piece ⟨ps, n * ps, w⟩ b s).1.1.map Piece.id = some (k : Int) ∧
      (read_next_piece ⟨ps, n * ps, w⟩ b s).1.2 = decide (k + 1 = n)) ∧
    (read_next_piece ⟨ps, n * ps, w⟩ b s).2.pos = (k + 1) * ps ∧
    (read_next_piece ⟨ps, n * ps, w⟩ b s).2.queue.map Piece.key =
      whole_pieces ps (k + 1) (min (k + 1 + w) n - (k + 1)) := by
  have hsel := select_pieces_whole n ps w k m s.queue hps hq hm
  rw [← hpos] at hsel
  have hkeys : (b.foldl (fun acc a => mark_arrived acc a.1 a.2)
      (request_front (select_pieces ⟨ps, n * ps, w⟩ s.pos s.queue))).map Piece.key =
      whole_pieces ps k (min (k + w + 1) n - k) := by
    rw [arrivals_keys, request_front_keys, hsel]
  have hnd : ((request_front (select_pieces ⟨ps, n * ps, w⟩ s.pos s.queue)).map
      Piece.id).Nodup := by
    rw [map_id_eq_map_key, request_front_keys, hsel, whole_pieces, List.map_map]
    exact (List.nodup_range' _ _).map Nat.cast_injective
  have hdata := arrivals_data b _ (k : Int) hnd (Or.inr hb)
  have hlen : min (k + w + 1) n - k = (min (k + 1 + w) n - (k + 1)) + 1 := by omega
  cases hq3 : b.foldl (fun acc a => mark_arrived acc a.1 a.2)
      (request_front (select_pieces ⟨ps, n * ps, w⟩ s.pos s.queue)) with
  | nil =>
    rw [hq3, hlen, whole_pieces, List.range'_succ] at hkeys
    simp at hkeys
  | cons p rest =>
    rw [hq3] at hkeys hdata
    rw [hlen, whole_pieces, List.range'_succ, List.map_cons, List.map_cons] at hkeys
    obtain ⟨hp, hrest⟩ := List.cons.inj hkeys
    have hid : p.id = (k : Int) := congrArg Prod.fst hp
    have hl : p.length = (ps : Int) := congrArg (fun x => x.2.2) hp
    have hpd : p.data.isSome = true := hdata p (List.mem_cons_self _ _) hid
    have hf : fetch_next (b.foldl (fun acc a => mark_arrived acc a.1 a.2)
        (request_front (select_pieces ⟨ps, n * ps, w⟩ s.pos s.queue))) = some (p, rest) := by
      rw [hq3]
      simp only [fetch_next, hpd, if_true]
    have hnot : ¬ (Layout.file_size ⟨ps, n * ps, w⟩ ≤ s.pos) := by
      show ¬ (n * ps ≤ s.pos)
      rw [hpos, not_le]
      exact Nat.mul_lt_mul_of_pos_right hk hps
    rw [read_next_piece_of_fetch _ b s p rest hnot hf]
    have htn : p.length.toNat = ps := by rw [hl]; rfl
    refine ⟨⟨?_, ?_⟩, ?_, ?_⟩
    · show some (slice p).id = some (k : Int)
      rw [← hid]
      rfl
    · show decide (n * ps ≤ s.pos + p.length.toNat) = decide (k + 1 = n)
      rw [htn, hpos, decide_eq_decide]
      have : k * ps + ps = (k + 1) * ps := by rw [Nat.add_mul, Nat.one_mul]
      rw [this]
      constructor
      · intro h
        have := Nat.le_of_mul_le_mul_right h hps
        omega
      · intro h
        rw [h]
    · show s.pos + p.length.toNat = (k + 1) * ps
      rw [htn, hpos, Nat.add_mul, Nat.one_mul]
    · exact hrest

theorem read_all_at_end (L : Layout) (extra : List (List (Int × block_t))) (s : Stream)
    (h : L.file_size ≤ s.pos) :
    read_all L extra s = extra.map (fun _ => (none, true)) := by
  induction extra with
  | nil => rfl
  | cons b bs ih =>
    have hstep : read_next_piece L b s = ((none, true), s) := by
      unfold read_next_piece
      rw [if_pos h]
    simp only [read_all, hstep, ih, List.map_cons]

theorem read_all_whole (n ps w : Nat) (hps : 0 < ps) (extra : List (List (Int × block_t))) :
    ∀ (bs : List (List (Int × block_t))) (k m : Nat) (s : Stream),
      k + bs.length = n → s.pos = k * ps →
      s.queue.map Piece.key = whole_pieces ps k m → k + m ≤ min (k + w + 1) n →
      (∀ j, j < bs.length → ((k + j : Nat) : Int) ∈ (bs.getD j []).map Prod.fst) →
      (read_all ⟨ps, n * ps, w⟩ (bs ++ extra) s).map (fun r => (r.1.map Piece.id, r.2)) =
        (List.range' k bs.length).map (fun (i : Nat) => (some (i : Int), decide (i + 1 = n))) ++
          extra.map (fun _ => (none, true)) := by
  intro bs
  induction bs with
  | nil =>
    intro k m s hk hpos _ _ _
    have hend : Layout.file_size ⟨ps, n * ps, w⟩ ≤ s.pos := by
      show n * ps ≤ s.pos
      rw [hpos]
      simp only [List.length_nil, Nat.add_zero] at hk
      rw [hk]
    simp only [List.nil_append, read_all_at_end _ extra s hend, List.map_map, List.length_nil,
      List.range'_zero, List.map_nil]
    rfl
  | cons b bs ih =>
    intro k m s hk hpos hq hm hb
    simp only [List.length_cons] at hk
    have hb0 : (k : Int) ∈ b.map Prod.fst := by
      have := hb 0 (by simp)
      simpa using this
    obtain ⟨⟨hid, heof⟩, hpos', hq'⟩ :=
      read_next_piece_whole n ps w k m s b hps (by omega) hpos hq hm hb0
    have hrec := ih (k + 1) (min (k + 1 + w) n - (k + 1)) (read_next_piece ⟨ps, n * ps, w⟩ b s).2
      (by omega) hpos' hq' (by omega)
      (by
        intro j hj
        have := hb (j + 1) (by simp only [List.length_cons]; omega)
        simp only [List.getD_cons_succ] at this
        rw [show k + 1 + j = k + (j + 1) by omega]
        exact this)
    show ((read_next_piece ⟨ps, n * ps, w⟩ b s).1.1.map Piece.id,
        (read_next_piece ⟨ps, n * ps, w⟩ b s).1.2) ::
      (read_all ⟨ps, n * ps, w⟩ (bs ++ extra) (read_next_piece ⟨ps, n * ps, w⟩ b s).2).map
        (fun r => (r.1.map Piece.id, r.2)) = _
    rw [hrec, hid, heof, List.length_cons, List.range'_succ, List.map_cons, List.cons_append]

/-! ## Lemmas about the order of the queue -/

theorem dropWhile_run (c : Nat) : ∀ (m0 c0 : Nat),
    (List.range' c0 m0).dropWhile (fun (j : Nat) => decide ((j : Int) ≠ (c : Int))) =
      if c0 ≤ c ∧ c < c0 + m0 then List.range' c (c0 + m0 - c) else [] := by
  intro m0
  induction m0 with
  | zero =>
    intro c0
    have : ¬ (c0 ≤ c ∧ c < c0 + 0) := by omega
    simp [this]
  | succ m0 ih =>
    intro c0
    rw [List.range'_succ]
    by_cases hc : c0 = c
    · subst hc
      rw [List.dropWhile_cons_of_neg (by simp), if_pos (by omega),
        show c0 + (m0 + 1) - c0 = m0 + 1 by omega, List.range'_succ]
    · rw [List.dropWhile_cons_of_pos (by simpa using hc), ih (c0 + 1)]
      by_cases h : c0 + 1 ≤ c ∧ c < c0 + 1 + m0
      · rw [if_pos h, if_pos (by omega)]
        congr 1
        omega
      · rw [if_neg h, if_neg (by omega)]

theorem filter_run (c e : Nat) : ∀ (n s : Nat), c ≤ s →
    (List.range' s n).filter (fun (j : Nat) => decide ((c : Int) ≤ (j : Int) ∧ (j : Int) < (e : Int))) =
      List.range' s (min n (e - s)) := by
  intro n
  induction n with
  | zero => intro s _; simp
  | succ n ih =>
    intro s hs
    rw [List.range'_succ]
    by_cases hse : s < e
    · rw [List.filter_cons_of_pos (by simp; omega), ih (s + 1) (by omega),
        show min (n + 1) (e - s) = min n (e - (s + 1)) + 1 by omega, List.range'_succ]
    · rw [List.filter_cons_of_neg (by simp; omega), ih (s + 1) (by omega),
        show min n (e - (s + 1)) = 0 by omega, show min (n + 1) (e - s) = 0 by omega]
      rfl

theorem age_out_run (L : Layout) (offset : Nat) (q : List Piece) (c0 m0 : Nat)
    (hq : q.map Piece.id = (List.range' c0 m0).map (fun (i : Nat) => (i : Int))) :
    ∃ j, j ≤ L.window_end offset - L.covering offset ∧
      (age_out L offset q).map Piece.id =
        (List.range' (L.covering offset) j).map (fun (i : Nat) => (i : Int)) := by
  have hids : (age_out L offset q).map Piece.id =
      (((List.range' c0 m0).dropWhile
        (fun (j : Nat) => decide ((j : Int) ≠ (L.covering offset : Int)))).filter
        (fun (j : Nat) => decide ((L.covering offset : Int) ≤ (j : Int) ∧
          (j : Int) < (L.window_end offset : Int)))).map (fun (i : Nat) => (i : Int)) := by
    have h1 : (age_out L offset q).map Piece.id =
        ((q.map Piece.id).dropWhile (fun i => decide (i ≠ (L.covering offset : Int)))).filter
          (fun i => L.in_window offset i) := by
      unfold age_out
      rw [List.dropWhile_map, List.filter_map]
      rfl
    rw [h1, hq, List.dropWhile_map, List.filter_map]
    rfl
  rw [hids, dropWhile_run]
  by_cases h : c0 ≤ L.covering offset ∧ L.covering offset < c0 + m0
  · rw [if_pos h, filter_run _ _ _ _ (Nat.le_refl _)]
    exact ⟨_, Nat.min_le_right _ _, rfl⟩
  · rw [if_neg h]
    exact ⟨0, Nat.zero_le _, rfl⟩

theorem select_pieces_run (L : Layout) (offset : Nat) (q : List Piece) (c0 m0 : Nat)
    (hq : q.map Piece.id = (List.range' c0 m0).map (fun (i : Nat) => (i : Int))) :
    (select_pieces L offset q).map Piece.id =
      (L.window_ids offset).map (fun (i : Nat) => (i : Int)) := by
  obtain ⟨j, hj, hage⟩ := age_out_run L offset q c0 m0 hq
  have hids : L.window_ids offset =
      List.range' (L.covering offset) j ++
        List.range' (L.covering offset + j) (L.window_end offset - L.covering offset - j) := by
    unfold Layout.window_ids
    rw [List.range'_append_1]
    congr 1
    omega
  have hpres : (List.range' (L.covering offset) j).foldl
      (fun acc i => enqueue acc (L.descriptor offset i)) (age_out L offset q) =
      age_out L offset q := by
    apply enqueue_present
    intro i hi
    have : (i : Int) ∈ (age_out L offset q).map Piece.id := by
      rw [hage]
      exact List.mem_map_of_mem _ hi
    obtain ⟨x, hx, hxi⟩ := List.mem_map.mp this
    exact ⟨x, hx, hxi⟩
  have hnew : (List.range' (L.covering offset + j)
      (L.window_end offset - L.covering offset - j)).map
        (Piece.id ∘ L.descriptor offset) =
      (List.range' (L.covering offset + j)
        (L.window_end offset - L.covering offset - j)).map (fun (i : Nat) => (i : Int)) :=
    List.map_congr_left (fun i _ => rfl)
  have hfresh : (List.range' (L.covering offset + j)
        (L.window_end offset - L.covering offset - j)).foldl
      (fun acc i => enqueue acc (L.descriptor offset i)) (age_out L offset q) =
      age_out L offset q ++ (List.range' (L.covering offset + j)
        (L.window_end offset - L.covering offset - j)).map (L.descriptor offset) := by
    apply enqueue_fresh_map
    rw [List.map_append, hage, List.map_map, hnew, ← List.map_append, List.range'_append_1]
    exact (List.nodup_range' _ _).map Nat.cast_injective
  rw [select_pieces_eq, hids, List.foldl_append, hpres, hfresh, List.map_append, hage,
    List.map_map, hnew, ← List.map_append]

theorem step_run (q : List Piece) (e : Event) (c m : Nat)
    (hq : q.map Piece.id = (List.range' c m).map (fun (i : Nat) => (i : Int))) :
    ∃ c' m', (e.step q).1.map Piece.id =
      (List.range' c' m').map (fun (i : Nat) => (i : Int)) := by
  have hs := step_ids q e
  cases hd : (e.step q).2 with
  | none =>
    rw [hd] at hs
    exact ⟨c, m, by simpa using hs ▸ hq⟩
  | some p =>
    rw [hd, hq] at hs
    cases m with
    | zero => simp at hs
    | succ m =>
      rw [List.range'_succ] at hs
      simp only [Option.toList_some, List.singleton_append, List.map_cons,
        List.cons.injEq] at hs
      exact ⟨c + 1, m, hs.2⟩

theorem reach_run (L : Layout) (ops : List Op) :
    ∃ c m, (reach L ops).map Piece.id =
      (List.range' c m).map (fun (i : Nat) => (i : Int)) := by
  unfold reach
  suffices hgen : ∀ q : List Piece,
      (∃ c m, q.map Piece.id = (List.range' c m).map (fun (i : Nat) => (i : Int))) →
      ∃ c m, (ops.foldl (Op.step L) q).map Piece.id =
        (List.range' c m).map (fun (i : Nat) => (i : Int)) from
    hgen [] ⟨0, 0, rfl⟩
  induction ops with
  | nil => intro q h; exact h
  | cons o ops ih =>
    intro q h
    simp only [List.foldl_cons]
    apply ih
    obtain ⟨c, m, hq⟩ := h
    cases o with
    | select offset =>
      exact ⟨L.covering offset, L.window_end offset - L.covering offset,
        select_pieces_run L offset q c m hq⟩
    | event e => exact step_run q e c m hq

theorem run_ascending (c m : Nat) :
    ((List.range' c m).map (fun (i : Nat) => (i : Int))).Pairwise (· < ·) := by
  rw [List.pairwise_map]
  exact (List.pairwise_lt_range' c m).imp (fun h => by exact_mod_cast h)

theorem applySetters_uri (calls : List SetterCall) :
    ∀ t : TorrentAccess, (applySetters t calls).uri = t.uri := by
  induction calls with
  | nil => intro t; rfl
  | cons c cs ih =>
    intro t
    show (applySetters (applySetter t c) cs).uri = t.uri
    rw [ih]
    cases c <;> rfl

/-- C5: the destructor leaves the stop flag set whatever value it had before, and
running its state change a second time gives the same state as running it once. -/
theorem dtor_sets_stop_flag_idempotent (t : TorrentAccess) (b : Bool) :
    ({ t with stopped_ := b } : TorrentAccess).dtor.stopped_ = true ∧
      t.dtor.stopped_ = true ∧ t.dtor.dtor = t.dtor := by
  refine ⟨rfl, rfl, rfl⟩

/-- C6: the object built from an access whose location is `loc` reports the URI
`"torrent://" ++ loc`; that URI has `"torrent://"` as a prefix, and dropping the ten
characters of the prefix gives `loc` back. -/
theorem ctor_uri_scheme_location (loc : String) :
    (TorrentAccess.ctor { psz_location := loc }).uri = "torrent://" ++ loc ∧
      "torrent://".data <+: (TorrentAccess.ctor { psz_location := loc }).uri.data ∧
      (TorrentAccess.ctor { psz_location := loc }).uri.drop "torrent://".length = loc := by
  refine ⟨rfl, ⟨loc.data, rfl⟩, ?_⟩
  rw [String.drop_eq]
  show String.mk (List.drop "torrent://".length ("torrent://".data ++ loc.data)) = loc
  rw [show "torrent://".length = "torrent://".data.length from rfl, List.drop_left]

/-- C7: `Piece(i, off, len)` stores its three arguments, is not requested and has no
data; `Piece()` equals `Piece(0, 0, 0)`. -/
theorem piece_ctor_fields (i off len : Int) :
    (Piece.ctor i off len).id = i ∧ (Piece.ctor i off len).offset = off ∧
      (Piece.ctor i off len).length = len ∧ (Piece.ctor i off len).requested = false ∧
      (Piece.ctor i off len).data = none ∧ Piece.ctor0 = Piece.ctor 0 0 0 := by
  refine ⟨rfl, rfl, rfl, rfl, rfl, rfl⟩

/-- C8: after `set_parameters(p)`, `has_metadata()` is true exactly when `p.ti` is
present, and when it is true `metadata()` is defined and returns the info held in `p.ti`;
on any object, `has_metadata()` true means `params_.ti` is present and `metadata()`
returns the info it holds. -/
theorem has_metadata_iff_ti_present (t : TorrentAccess) (p : add_torrent_params) :
    ((t.set_parameters p).has_metadata = true ↔ p.ti ≠ none) ∧
      ((t.set_parameters p).has_metadata = true →
        ∃ info, p.ti = some info ∧ (t.set_parameters p).metadata = some info) ∧
      (t.has_metadata = true →
        ∃ info, t.params_.ti = some info ∧ t.metadata = some info) := by
  have hgen : ∀ u : TorrentAccess, u.has_metadata = true →
      ∃ info, u.params_.ti = some info ∧ u.metadata = some info := by
    intro u h
    cases hti : u.params_.ti with
    | none => simp [TorrentAccess.has_metadata, hti] at h
    | some info => exact ⟨info, rfl, by simp [TorrentAccess.metadata, hti]⟩
  refine ⟨?_, hgen (t.set_parameters p), hgen t⟩
  cases h : p.ti <;> simp [TorrentAccess.has_metadata, TorrentAccess.set_parameters, h]

theorem has_metadata_iff_ti_present_witness :
    ∃ info, (⟨some ⟨16384, 163840⟩, "/tmp"⟩ : add_torrent_params).ti = some info ∧
      ((TorrentAccess.ctor ⟨"magnet:?xt=urn:btih:0"⟩).set_parameters
        ⟨some ⟨16384, 163840⟩, "/tmp"⟩).metadata = some info :=
  (has_metadata_iff_ti_present (TorrentAccess.ctor ⟨"magnet:?xt=urn:btih:0"⟩)
    ⟨some ⟨16384, 163840⟩, "/tmp"⟩).2.1 (by decide)

/-- C9: a freshly constructed object is not stopped, selects file index 0, has no
download directory and an empty piece queue, whatever access object it is built from. -/
theorem ctor_initial_state (p_access : access_t) :
    (TorrentAccess.ctor p_access).stopped_ = false ∧
      (TorrentAccess.ctor p_access).file_at_ = 0 ∧
      (TorrentAccess.ctor p_access).download_dir_ = none ∧
      (TorrentAccess.ctor p_access).queue_.pieces = [] := by
  refine ⟨rfl, rfl, rfl, rfl⟩

/-- C10: `set_download_dir(d)` replaces the download directory and leaves the URI, the
metadata accessors, the file index, the stop flag and the queue as they were;
`set_parameters(p)` replaces the parameters and leaves the URI, the download directory,
the file index, the stop flag and the queue as they were; the URI is the same after any
sequence of setter calls. -/
theorem setters_frame (t : TorrentAccess) (d : Option String) (p : add_torrent_params)
    (calls : List SetterCall) :
    ((t.set_download_dir d).download_dir_ = d ∧
      (t.set_download_dir d).uri = t.uri ∧
      (t.set_download_dir d).has_metadata = t.has_metadata ∧
      (t.set_download_dir d).metadata = t.metadata ∧
      (t.set_download_dir d).file_at_ = t.file_at_ ∧
      (t.set_download_dir d).stopped_ = t.stopped_ ∧
      (t.set_download_dir d).queue_ = t.queue_) ∧
    ((t.set_parameters p).params_ = p ∧
      (t.set_parameters p).uri = t.uri ∧
      (t.set_parameters p).download_dir_ = t.download_dir_ ∧
      (t.set_parameters p).file_at_ = t.file_at_ ∧
      (t.set_parameters p).stopped_ = t.stopped_ ∧
      (t.set_parameters p).queue_ = t.queue_) ∧
    (applySetters t calls).uri = t.uri := by
  refine ⟨⟨rfl, rfl, rfl, rfl, rfl, rfl, rfl⟩, ⟨rfl, rfl, rfl, rfl, rfl, rfl⟩, ?_⟩
  exact applySetters_uri calls t

/-! ## Theorems about the piece-acquisition pipeline -/

/-- C1: a fetch hands out only the front element of the queue; for every sequence of
pieces enqueued and every interleaving of arrivals and fetch attempts the pieces handed
out are an initial run of the queue in enqueue order; every queue that `select_pieces`
calls build (every reachable queue) holds its pieces in strictly ascending id order, so
the pieces handed out from it are in strictly ascending id order whatever the order of
arrival; and when the payloads of all queued pieces have arrived, in any permutation,
fetching hands out every queued piece in that order. -/
theorem fetch_delivers_in_enqueue_order (L : Layout) (ops : List Op) (ps : List Piece)
    (es : List Event) (arr : List (Int × block_t)) :
    (∀ (q rest : List Piece) (p : Piece),
      fetch_next q = some (p, rest) → q.head? = some p ∧ rest = q.tail) ∧
    ((play (ps.foldl enqueue []) es).2.map Piece.id <+:
      (ps.foldl enqueue []).map Piece.id) ∧
    ((reach L ops).map Piece.id).Pairwise (· < ·) ∧
    ((play (reach L ops) es).2.map Piece.id <+: (reach L ops).map Piece.id) ∧
    ((play (reach L ops) es).2.map Piece.id).Pairwise (· < ·) ∧
    ((arr.map Prod.fst).Perm ((reach L ops).map Piece.id) →
      (play (reach L ops)
        (arr.map (fun a => Event.arrive a.1 a.2) ++
          List.replicate (reach L ops).length Event.fetch)).2.map Piece.id
        = (reach L ops).map Piece.id) := by
  have hasc : ((reach L ops).map Piece.id).Pairwise (· < ·) := by
    obtain ⟨c, m, h⟩ := reach_run L ops
    rw [h]
    exact run_ascending c m
  have hpre := play_delivered_is_front_run (reach L ops) es
  refine ⟨?_, play_delivered_is_front_run _ es, hasc, hpre, hasc.sublist hpre.sublist, ?_⟩
  · intro q rest p h
    obtain ⟨rfl, -⟩ := fetch_next_some h
    exact ⟨rfl, rfl⟩
  · intro hperm
    rw [play_append, play_arrivals]
    have hlen : (reach L ops).length =
        (arr.foldl (fun acc a => mark_arrived acc a.1 a.2) (reach L ops)).length := by
      have := congrArg List.length (arrivals_ids arr (reach L ops))
      simpa using this.symm
    rw [hlen, play_fetches]
    · simp only [List.nil_append]
      exact arrivals_ids arr _
    · intro p hp
      refine arrivals_data arr _ p.id (reach_nodup L ops) (Or.inr ?_) p hp rfl
      have hmem : p.id ∈ (reach L ops).map Piece.id := by
        rw [← arrivals_ids arr]
        exact List.mem_map_of_mem _ hp
      exact hperm.symm.subset hmem

theorem fetch_delivers_in_enqueue_order_witness :
    (play (reach ⟨16384, 163840, 2⟩ [Op.select (7 * 16384), Op.select (6 * 16384)])
        ([((8 : Int), (⟨[8]⟩ : block_t)), (6, ⟨[6]⟩), (7, ⟨[7]⟩)].map
            (fun a => Event.arrive a.1 a.2) ++
          List.replicate
            (reach ⟨16384, 163840, 2⟩
              [Op.select (7 * 16384), Op.select (6 * 16384)]).length Event.fetch)).2.map
        Piece.id
      = [6, 7, 8] :=
  (fetch_delivers_in_enqueue_order ⟨16384, 163840, 2⟩
      [Op.select (7 * 16384), Op.select (6 * 16384)] [] []
      [((8 : Int), (⟨[8]⟩ : block_t)), (6, ⟨[6]⟩), (7, ⟨[7]⟩)]).2.2.2.2.2 (by decide)

/-- C2: in every queue reached from the empty queue by `select_pieces` calls, arrivals
and fetches, and after a further `select_pieces(offset)` on it for any offset, each piece
id occurs at most once. -/
theorem select_pieces_no_duplicate (L : Layout) (ops : List Op) (offset : Nat) :
    ((reach L ops).map Piece.id).Nodup ∧
    ((select_pieces L offset (reach L ops)).map Piece.id).Nodup ∧
    (∀ i : Int, ((select_pieces L offset (reach L ops)).map Piece.id).count i ≤ 1) := by
  have h := select_pieces_nodup L offset _ (reach_nodup L ops)
  exact ⟨reach_nodup L ops, h, fun i => List.nodup_iff_count_le_one.mp h i⟩

/-- C3: for a file of `n` whole pieces of `ps` bytes and any look-ahead, when the alerts
handled during the call for piece `k` include the arrival of piece `k` (whatever else
arrives, in whatever order), the first `n` calls of `read_next_piece` from offset 0 (after
`start_download`, or on the empty queue) return the pieces 0, 1, ..., n-1 in that order,
`eof` is false in every call before the one returning piece n-1 and true in that one, and
every later call returns no piece and `eof` true. -/
theorem read_next_piece_sequential (n ps w : Nat) (batches extra : List (List (Int × block_t)))
    (hps : 0 < ps) (hlen : batches.length = n)
    (harr : ∀ k, k < n → (k : Int) ∈ (batches.getD k []).map Prod.fst) :
    (read_all ⟨ps, n * ps, w⟩ (batches ++ extra) (start_download ⟨ps, n * ps, w⟩)).map
        (fun r => (r.1.map Piece.id, r.2)) =
      (List.range n).map (fun (k : Nat) => (some (k : Int), decide (k + 1 = n))) ++
        extra.map (fun _ => (none, true)) ∧
    (read_all ⟨ps, n * ps, w⟩ (batches ++ extra) { pos := 0, queue := [] }).map
        (fun r => (r.1.map Piece.id, r.2)) =
      (List.range n).map (fun (k : Nat) => (some (k : Int), decide (k + 1 = n))) ++
        extra.map (fun _ => (none, true)) := by
  have hq : (start_download ⟨ps, n * ps, w⟩).queue.map Piece.key =
      whole_pieces ps 0 (min (0 + w + 1) n - 0) := by
    have := select_pieces_whole n ps w 0 0 [] hps rfl (by omega)
    rw [Nat.zero_mul] at this
    exact this
  have harr0 : ∀ j, j < batches.length →
      ((0 + j : Nat) : Int) ∈ (batches.getD j []).map Prod.fst := by
    intro j hj
    rw [Nat.zero_add]
    exact harr j (by omega)
  have h := read_all_whole n ps w hps extra batches 0 (min (0 + w + 1) n - 0)
    (start_download ⟨ps, n * ps, w⟩) (by omega) (by rw [Nat.zero_mul]; rfl) hq (by omega) harr0
  have h0 := read_all_whole n ps w hps extra batches 0 0 { pos := 0, queue := [] }
    (by omega) (by rw [Nat.zero_mul]) rfl (by omega) harr0
  rw [h, h0, hlen, List.range_eq_range']
  exact ⟨rfl, rfl⟩

theorem read_next_piece_sequential_witness :
    (read_all ⟨16384, 10 * 16384, 2⟩
        ((List.range 10).map
            (fun (k : Nat) => [(((k + 1 : Nat) : Int), (⟨[k + 1]⟩ : block_t)), ((k : Int), ⟨[k]⟩)]) ++
          [[], []])
        (start_download ⟨16384, 10 * 16384, 2⟩)).map (fun r => (r.1.map Piece.id, r.2)) =
      (List.range 10).map (fun (k : Nat) => (some (k : Int), decide (k + 1 = 10))) ++
        ([[], []] : List (List (Int × block_t))).map (fun _ => (none, true)) :=
  (read_next_piece_sequential 10 16384 2
    ((List.range 10).map
      (fun (k : Nat) => [(((k + 1 : Nat) : Int), (⟨[k + 1]⟩ : block_t)), ((k : Int), ⟨[k]⟩)]))
    [[], []] (by decide) (by decide) (by decide)).1

end Torrent
